import Mathlib

/-!
Verification development for the documentation-scraper core
(schema classifier, content extractor, search index, crawler).

The TypeScript sources are shallowly embedded: strings are lists of
characters, the regular expressions of the source are hand-compiled into
executable matching functions over those lists, JavaScript Set/Map objects
become lists with explicit insertion functions that preserve insertion
order, and code that can throw is modelled with Option/Except.  Each
definition carries a note naming the source function it embeds.
-/

namespace IkasDocs

/-- Strings are modelled as lists of characters. -/
abbrev Str := List Char

/-- Whitespace test used by the embedded regexes for the JS class \s
(ASCII subset; the exotic Unicode whitespace code points JS also accepts
do not occur in the inputs modelled here). -/
def isWs (c : Char) : Bool :=
  c == ' ' || c == '\t' || c == '\n' || c == '\r' || c == '\x0b' || c == '\x0c'

/-- Word-character test for the JS regex class \w: letters, digits, underscore. -/
def isWordChar (c : Char) : Bool :=
  c.isAlphanum || c == '_'

/-- Embeds JavaScript String.prototype.toLowerCase (per-character, ASCII). -/
def lowerStr (s : Str) : Str := s.map Char.toLower

/-- Embeds JavaScript String.prototype.trim. -/
def trimStr (s : Str) : Str :=
  ((s.dropWhile isWs).reverse.dropWhile isWs).reverse

/-- Embeds JavaScript String.prototype.includes: substring test. -/
def strIncludes (hay needle : Str) : Bool :=
  hay.tails.any (fun t => needle.isPrefixOf t)

/-- Splits a string at newline characters (auxiliary, current chunk reversed). -/
def splitLinesAux (cur : Str) : Str → List Str
  | [] => [cur.reverse]
  | c :: rest =>
    if c = '\n' then cur.reverse :: splitLinesAux [] rest
    else splitLinesAux (c :: cur) rest

/-- Splits a string into its lines (separator '\n', as the line starts that
the multiline flag of the embedded regexes anchor to). -/
def splitLines (s : Str) : List Str := splitLinesAux [] s

mutual

/-- Auxiliary for splitWs: accumulating a chunk (reversed). -/
def splitWsGo (cur : Str) : Str → List Str
  | [] => [cur.reverse]
  | c :: rest =>
    if isWs c then cur.reverse :: splitWsSkip rest
    else splitWsGo (c :: cur) rest

/-- Auxiliary for splitWs: inside a whitespace run. -/
def splitWsSkip : Str → List Str
  | [] => [[]]
  | c :: rest =>
    if isWs c then splitWsSkip rest
    else splitWsGo [c] rest

end

/-- Embeds JavaScript str.split(rx) for the separator regex of one or more
whitespace characters: chunks between maximal whitespace runs, with an empty
chunk at either end when the string starts or ends with whitespace. -/
def splitWs (s : Str) : List Str := splitWsGo [] s

/-- Auxiliary for countOcc: walks the text one character at a time; skip
counts characters still covered by the previous match. -/
def countOccAux (p : Str) (skip cnt : Nat) : Str → Nat
  | [] => cnt
  | c :: rest =>
    if 0 < skip then countOccAux p (skip - 1) cnt rest
    else if p.isPrefixOf (c :: rest) then
      countOccAux p (p.length - 1) (cnt + 1) rest
    else countOccAux p 0 cnt rest

/-- Number of non-overlapping, leftmost occurrences of p as a literal
substring — the behaviour of a global regex match when the pattern has no
metacharacters. -/
def countOcc (p s : Str) : Nat := countOccAux p 0 0 s

/-- Characters that are special in a JS RegExp pattern. -/
def isRegexMeta (c : Char) : Bool :=
  c == '\\' || c == '^' || c == '$' || c == '.' || c == '|' || c == '?' ||
  c == '*' || c == '+' || c == '(' || c == ')' || c == '[' || c == ']' ||
  c == '\x7b' || c == '\x7d'

/-- Embeds (contentLower.match(new RegExp(word, g-flag)) or []).length,
the global regex match count search computes per token, on the fragment of
RegExp the theorems touch: a metacharacter-free token denotes its literal
text and is counted by leftmost non-overlapping scanning; a
metacharacter-free body followed by the end anchor matches at most once,
exactly when the body is a suffix of the content (the JS end anchor,
without the m flag, holds only at the very end of the input).  Compiling
patterns outside this fragment are out of the model and mapped to 0; no
theorem exercises them. -/
def countMatches (w content : Str) : Nat :=
  if w.all (fun c => !(isRegexMeta c)) then countOcc w content
  else if w.getLast? = some '$' ∧ (w.dropLast).all (fun c => !(isRegexMeta c)) then
    if (w.dropLast).isSuffixOf content then 1 else 0
  else 0

/-- JavaScript Set.prototype.add on an insertion-ordered list. -/
def setAdd (l : List Str) (u : Str) : List Str :=
  if u ∈ l then l else l ++ [u]

/-- Auxiliary for replaceAllStr, with fuel (the fuel is always at least the
length of the remaining text, so it never runs out). -/
def replaceAllAux (pat rep : Str) : Nat → Str → Str
  | 0, s => s
  | _ + 1, [] => []
  | fuel + 1, c :: rest =>
    if pat ≠ [] ∧ pat.isPrefixOf (c :: rest) then
      rep ++ replaceAllAux pat rep fuel ((c :: rest).drop pat.length)
    else c :: replaceAllAux pat rep fuel rest

/-- Embeds JavaScript str.replace(pat-as-global-literal, rep): replaces every
non-overlapping, leftmost occurrence of pat by rep. -/
def replaceAllStr (pat rep s : Str) : Str := replaceAllAux pat rep s.length s

/-! Schema classifier, embedding src/parser/graphql-parser.ts. -/

/-- Fragment kinds, from the type field of the GraphQLSchema interface in
src/types/index.ts. -/
inductive SchemaKind where
  | query
  | mutation
  | type
  | input
  | enum
  | interface
deriving DecidableEq, Repr

/-- One extracted field, from the fields entry of the GraphQLSchema
interface (name, type, optional description). -/
structure FieldDef where
  name : Str
  type : Str
  description : Option Str
deriving DecidableEq, Repr

/-- Embeds the GraphQLSchema interface of src/types/index.ts (the unused
parsed field is omitted). -/
structure GraphQLSchema where
  raw : Str
  type : SchemaKind
  name : Str
  fields : Option (List FieldDef)
deriving DecidableEq, Repr

/-- Auxiliary for findAtLineStarts: b records whether the current suffix
begins at a line start (position 0 or just after a newline). -/
def findALSGo {α : Type} (f : Str → Option α) (b : Bool) : Str → Option α
  | [] => if b then f [] else none
  | c :: rest =>
    match (if b then f (c :: rest) else none) with
    | some a => some a
    | none => findALSGo f (c == '\n') rest

/-- Leftmost match of a caret-anchored multiline regex: tries the matcher f
at every line-start suffix of the text, left to right, and returns the first
success.  This is how the m-flagged patterns of parseGraphQLSchema scan. -/
def findAtLineStarts {α : Type} (f : Str → Option α) (s : Str) : Option α :=
  findALSGo f true s

/-- Matches kw, then one-or-more whitespace, then a captured word, then
optional whitespace and an opening brace, at the start of cs.  This compiles
the regex tail after the leading whitespace of the declaration patterns of
parseGraphQLSchema (the whitespace runs may cross newlines, as JS \s does). -/
def declAfterKw (kw : Str) (cs : Str) : Option Str :=
  if kw.isPrefixOf cs then
    match cs.drop kw.length with
    | [] => none
    | c :: rest =>
      if isWs c then
        let s2 := (c :: rest).dropWhile isWs
        let nmRest := s2.span isWordChar
        if nmRest.1 = [] then none
        else
          match nmRest.2.dropWhile isWs with
          | '{' :: _ => some nmRest.1
          | _ => none
      else none
  else none

/-- Alternation of declaration keywords at one line start: leading \s*, then
the first keyword of kws that matches (JS alternation order), with its
captured name. -/
def typeDeclAt (kws : List Str) (cs : Str) : Option (Str × Str) :=
  (kws.findSome? fun kw => (declAfterKw kw (cs.dropWhile isWs)).map fun n => (kw, n))

/-- Consumes an optional parenthesised argument group (regex group of a
literal open parenthesis, non-close-parenthesis characters, close
parenthesis, all optional): on a malformed group the optional group fails
and the input is returned unchanged. -/
def skipParenGroup (s : Str) : Str :=
  match s with
  | '(' :: rest =>
    match (rest.span fun c => !(c == ')')).2 with
    | ')' :: s3 => s3
    | _ => '(' :: rest
  | _ => s

/-- Operation pattern body after the keyword: one-or-more whitespace, an
optional captured name, optional whitespace, an optional argument group,
optional whitespace, an opening brace.  Embeds the operation pattern of
parseGraphQLSchema. -/
def opAfterKw (kw : Str) (cs : Str) : Option (Option Str) :=
  if kw.isPrefixOf cs then
    match cs.drop kw.length with
    | [] => none
    | c :: rest =>
      if isWs c then
        let s2 := (c :: rest).dropWhile isWs
        let nmRest := s2.span isWordChar
        match (skipParenGroup (nmRest.2.dropWhile isWs)).dropWhile isWs with
        | '{' :: _ => some (if nmRest.1 = [] then none else some nmRest.1)
        | _ => none
      else none
  else none

/-- Test of the query pattern of parseGraphQLSchema: a line containing the
keyword, the literal name tname, and an opening brace (the literal name in
the regex matches exactly when the maximal word at that spot equals it). -/
def patTypeNamed (tname : Str) (code : Str) : Bool :=
  (findAtLineStarts (fun cs =>
    match typeDeclAt [['t','y','p','e']] cs with
    | some (_, n) => if n = tname then some () else none
    | none => none) code).isSome

/-- Leftmost match of the input pattern of parseGraphQLSchema. -/
def patInput (code : Str) : Option Str :=
  findAtLineStarts (fun cs =>
    (typeDeclAt [['i','n','p','u','t']] cs).map fun kn => kn.2) code

/-- Leftmost match of the enum pattern of parseGraphQLSchema. -/
def patEnum (code : Str) : Option Str :=
  findAtLineStarts (fun cs =>
    (typeDeclAt [['e','n','u','m']] cs).map fun kn => kn.2) code

/-- Leftmost match of the type pattern of parseGraphQLSchema: the
type-or-interface alternation with the captured keyword and name. -/
def patType (code : Str) : Option (Str × Str) :=
  findAtLineStarts (typeDeclAt [['t','y','p','e'], ['i','n','t','e','r','f','a','c','e']]) code

/-- Leftmost match of the operation pattern of parseGraphQLSchema. -/
def patOperation (code : Str) : Option (Str × Option Str) :=
  findAtLineStarts (fun cs =>
    (([['q','u','e','r','y'], ['m','u','t','a','t','i','o','n']] : List Str).findSome? fun kw =>
      (opAfterKw kw (cs.dropWhile isWs)).map fun n => (kw, n))) code

/-- Structural keywords skipped by extractFields. -/
def fieldKeywordNames : List Str :=
  [['t','y','p','e'], ['i','n','p','u','t'], ['e','n','u','m'],
   ['i','n','t','e','r','f','a','c','e'], ['q','u','e','r','y'],
   ['m','u','t','a','t','i','o','n']]

/-- Field-line matcher: compiles the field pattern of extractFields (word,
colon, a lazily-matched non-empty run of non-comment characters as the
type, an optional hash comment as the description, anchored to the end of
the line) against one line.  When only whitespace stands between the colon
and the comment sign or the line end, the lazy type group backtracks into
that whitespace and captures a single whitespace character, which the
source then trims to an empty type; with nothing at all after the colon
there is no match.  The whitespace runs of the pattern are treated as
staying inside the line; the inputs considered contain no field split
across lines. -/
def parseFieldLine (line : Str) : Option FieldDef :=
  let s1 := line.dropWhile isWs
  let wRest := s1.span isWordChar
  if wRest.1 = [] then none
  else
    match wRest.2.dropWhile isWs with
    | ':' :: s4 =>
      let wsRun := s4.takeWhile isWs
      let s5 := s4.dropWhile isWs
      let body := s5.span fun c => !(c == '#')
      if body.1 = [] then
        if wsRun = [] then none
        else
          match s5 with
          | '#' :: s7 => some ⟨wRest.1, [], some (trimStr s7)⟩
          | _ => some ⟨wRest.1, [], none⟩
      else
        match body.2 with
        | '#' :: s7 => some ⟨wRest.1, trimStr body.1, some (trimStr s7)⟩
        | _ => some ⟨wRest.1, trimStr body.1, none⟩
    | _ => none

/-- Embeds GraphQLParser.extractFields: collects the field-pattern matches
line by line, skips matches whose name is a structural keyword, and returns
undefined (none) when no field was found. -/
def extractFields (code : Str) : Option (List FieldDef) :=
  let fs := (splitLines code).filterMap fun l =>
    (parseFieldLine l).bind fun f =>
      if f.name ∈ fieldKeywordNames then none else some f
  if fs = [] then none else some fs

/-- Kind assigned by the operation branch of parseGraphQLSchema from the
captured keyword. -/
def opKind (kw : Str) : SchemaKind :=
  if kw = ['q','u','e','r','y'] then SchemaKind.query else SchemaKind.mutation

/-- Ordered pattern cascade of GraphQLParser.parseGraphQLSchema (query,
mutation, input, enum, type-or-interface, operation; first match wins),
yielding the assigned kind and name. -/
def classifyKind (code : Str) : Option (SchemaKind × Str) :=
  if patTypeNamed ['Q','u','e','r','y'] code then
    some (SchemaKind.query, ['Q','u','e','r','y'])
  else if patTypeNamed ['M','u','t','a','t','i','o','n'] code then
    some (SchemaKind.mutation, ['M','u','t','a','t','i','o','n'])
  else
    match patInput code with
    | some n => some (SchemaKind.input, n)
    | none =>
      match patEnum code with
      | some n => some (SchemaKind.enum, n)
      | none =>
        match patType code with
        | some kn => some (SchemaKind.type, kn.2)
        | none =>
          match patOperation code with
          | some kn =>
            some (opKind kn.1, kn.2.getD (kn.1 ++ ['O','p','e','r','a','t','i','o','n']))
          | none => none

/-- Embeds GraphQLParser.parseGraphQLSchema: classify by the pattern
cascade, then extract fields; returns none when no pattern matches. -/
def parseGraphQLSchema (code : Str) : Option GraphQLSchema :=
  match classifyKind code with
  | none => none
  | some kn => some { raw := code, type := kn.1, name := kn.2, fields := extractFields code }

/-- Deduplication key of GraphQLParser.deduplicateSchemas: the template
string of kind, name and raw length. -/
def dedupKey (s : GraphQLSchema) : SchemaKind × Str × Nat :=
  (s.type, s.name, s.raw.length)

/-- One Map.set round of deduplicateSchemas on an insertion-ordered
association list: a fresh key is appended; on a key collision the stored
schema is replaced (in place, keeping its position) only when the incoming
raw text is strictly longer. -/
def dedupInsert (acc : List ((SchemaKind × Str × Nat) × GraphQLSchema))
    (s : GraphQLSchema) : List ((SchemaKind × Str × Nat) × GraphQLSchema) :=
  if acc.any fun p => p.1 = dedupKey s then
    acc.map fun p =>
      if p.1 = dedupKey s ∧ p.2.raw.length < s.raw.length then (p.1, s) else p
  else acc ++ [(dedupKey s, s)]

/-- Embeds GraphQLParser.deduplicateSchemas. -/
def deduplicateSchemas (l : List GraphQLSchema) : List GraphQLSchema :=
  (l.foldl dedupInsert []).map fun p => p.2

/-- Cleanup applied by extractSchemas to a script-tag regex match: strip the
surrounding quotes, then unescape newlines, quotes and backslashes, in that
order. -/
def cleanScriptMatch (m : Str) : Str :=
  replaceAllStr ['\\', '\\'] ['\\']
    (replaceAllStr ['\\', '\x22'] ['\x22']
      (replaceAllStr ['\\', 'n'] ['\n'] ((m.drop 1).dropLast)))

/-- Embeds GraphQLParser.extractSchemas from the candidate lists onward:
scriptMatches are the matches of the schema-string regex over script-tag
bodies (still carrying their surrounding quotes), codeBlocks are the text
contents of the selected code-bearing elements.  Script candidates are
cleaned and classified with no length check; code blocks are trimmed and
rejected below 20 characters; the combined list is deduplicated. -/
def extractSchemas (scriptMatches codeBlocks : List Str) : List GraphQLSchema :=
  let fromScripts := scriptMatches.filterMap fun m =>
    parseGraphQLSchema (cleanScriptMatch m)
  let fromBlocks := codeBlocks.filterMap fun b =>
    let code := trimStr b
    if code.length < 20 then none else parseGraphQLSchema code
  deduplicateSchemas (fromScripts ++ fromBlocks)

/-! Section hierarchy, embedding ContentExtractor.buildSectionHierarchy of
src/parser/content-extractor.ts. -/

/-- Flat section record as pushed by extractSections before hierarchy
building: id, title, heading level, accumulated content. -/
structure FlatSection where
  id : Str
  title : Str
  level : Nat
  content : Str
deriving DecidableEq, Repr

/-- Section tree node: the Section interface with its subsections list
(a missing subsections array and an empty one are both modelled as []). -/
inductive SecTree where
  | mk (id title : Str) (level : Nat) (content : Str) (subsections : List SecTree)

/-- Heading level of the root node of a section tree. -/
def treeLevel : SecTree → Nat
  | .mk _ _ lvl _ _ => lvl

/-- Flat data of the root node of a section tree. -/
def treeSec : SecTree → FlatSection
  | .mk i t lvl c _ => ⟨i, t, lvl, c⟩

/-- Subsections of the root node of a section tree. -/
def treeSubs : SecTree → List SecTree
  | .mk _ _ _ _ subs => subs

/-- Stack frame of buildSectionHierarchy: a section still open for
subsections, with the subsections attached so far.  In the source the stack
holds references to the same objects that already sit in the tree; here a
frame is closed into a node when it is popped, which attaches children at
the same moments and in the same order. -/
structure Frame where
  sec : FlatSection
  children : List SecTree

/-- Closes a stack frame into a section tree node. -/
def closeFrame (f : Frame) : SecTree :=
  .mk f.sec.id f.sec.title f.sec.level f.sec.content f.children

/-- Pop loop of buildSectionHierarchy once at least one frame has been
popped: child is the node closed from the frame popped just above; it is
attached to the next frame down (or to the root list when the stack runs
out), and that frame is popped in turn while its level is still at least
lvl. -/
def popAux (lvl : Nat) (child : SecTree) :
    List Frame → List SecTree → List Frame × List SecTree
  | [], roots => ([], roots ++ [child])
  | g :: gs, roots =>
    if lvl ≤ g.sec.level then
      popAux lvl (closeFrame { g with children := g.children ++ [child] }) gs roots
    else ({ g with children := g.children ++ [child] } :: gs, roots)

/-- Embeds the while-loop of buildSectionHierarchy that removes stack
entries whose level is greater than or equal to the incoming section's
level. -/
def popFrames (lvl : Nat) (stack : List Frame) (roots : List SecTree) :
    List Frame × List SecTree :=
  match stack with
  | [] => ([], roots)
  | f :: rest =>
    if lvl ≤ f.sec.level then popAux lvl (closeFrame f) rest roots
    else (f :: rest, roots)

/-- One iteration of the for-loop of buildSectionHierarchy: pop
same-or-higher-level frames, then push the incoming section as the new
innermost open frame (it was attached to its parent or the root list; the
closing of its frame performs that attachment here). -/
def stepSec (st : List Frame × List SecTree) (s : FlatSection) :
    List Frame × List SecTree :=
  let popped := popFrames s.level st.1 st.2
  (⟨s, []⟩ :: popped.1, popped.2)

/-- Embeds ContentExtractor.buildSectionHierarchy: fold the flat section
list through the stack machine, then close the frames still open at the
end. -/
def buildSectionHierarchy (flat : List FlatSection) : List SecTree :=
  let st := flat.foldl stepSec ([], [])
  (popFrames 0 st.1 st.2).2

mutual

/-- Preorder traversal of a section tree, yielding flat section data. -/
def preorderT : SecTree → List FlatSection
  | .mk i t lvl c subs => ⟨i, t, lvl, c⟩ :: preorderF subs

/-- Preorder traversal of a section forest. -/
def preorderF : List SecTree → List FlatSection
  | [] => []
  | t :: ts => preorderT t ++ preorderF ts

end

mutual

/-- Checks that every node of the tree has children of strictly greater
level than its own. -/
def treeDeepOk : SecTree → Bool
  | .mk _ _ lvl _ subs => subs.all (fun c => lvl < treeLevel c) && forestDeepOk subs

/-- Forest version of treeDeepOk. -/
def forestDeepOk : List SecTree → Bool
  | [] => true
  | t :: ts => treeDeepOk t && forestDeepOk ts

end

/-- Checks that all trees of a list carry the same root level. -/
def levelsAllEq : List SecTree → Bool
  | [] => true
  | t :: ts => ts.all fun u => treeLevel u == treeLevel t

mutual

/-- Checks that the children of every node share one level. -/
def treeSibOk : SecTree → Bool
  | .mk _ _ _ _ subs => levelsAllEq subs && forestSibOk subs

/-- Forest version of treeSibOk. -/
def forestSibOk : List SecTree → Bool
  | [] => true
  | t :: ts => treeSibOk t && forestSibOk ts

end

/-- Sibling-uniformity property claimed of extractor output: root sections
share one level and the children of every node share one level. -/
def forestSiblingsUniform (ts : List SecTree) : Bool :=
  levelsAllEq ts && forestSibOk ts


/-! Search index, embedding SearchIndex.search of src/search/search-index.ts. -/

/-- Embeds the SearchDocument interface (codeLanguages is never read by
search and is omitted). -/
structure SearchDocument where
  id : Str
  title : Str
  content : Str
  category : Option Str
  type : Option Str
  keywords : List Str
  sections : List Str
  graphqlTypes : Option (List Str)
deriving DecidableEq, Repr

/-- Match flags accumulated per document by search. -/
structure MatchFlags where
  title : Bool
  content : Bool
  keywords : Bool
  graphql : Bool
deriving DecidableEq, Repr

/-- Embeds the SearchResult interface. -/
structure SearchResult where
  url : Str
  title : Str
  snippet : Str
  score : Nat
  matchInfo : MatchFlags
deriving DecidableEq, Repr

/-- Query tokenisation of search: lowercase, split on whitespace runs, keep
tokens longer than two characters. -/
def queryWords (query : Str) : List Str :=
  (splitWs (lowerStr query)).filter fun w => 2 < w.length

/-- Validity of a query token as a JS RegExp pattern, restricted to the
parenthesis discipline: the RegExp constructor inside search throws a
SyntaxError on unbalanced groups (such as the token of three open
parentheses) and on a trailing backslash.  Other ill-formed pattern shapes
are outside the model; the tokens the theorems touch are either plain
alphanumeric words (valid, and matching literally) or unbalanced
parentheses (invalid). -/
def jsRegexParensOk : Nat → Str → Bool
  | d, [] => d == 0
  | d, '\\' :: rest =>
    match rest with
    | [] => false
    | _ :: rest2 => jsRegexParensOk d rest2
  | d, '(' :: rest => jsRegexParensOk (d + 1) rest
  | d, ')' :: rest => if d == 0 then false else jsRegexParensOk (d - 1) rest
  | d, _ :: rest => jsRegexParensOk d rest

/-- Compilability of one query token as a RegExp pattern. -/
def tokenCompiles (w : Str) : Bool := jsRegexParensOk 0 w

/-- Category/type filter step of the search loop. -/
def passesFilters (cat ty : Option Str) (d : SearchDocument) : Bool :=
  (match cat with
   | none => true
   | some c => d.category == some c) &&
  (match ty with
   | none => true
   | some t => d.type == some t)

/-- Title term of the score: 20 points per query token contained in the
lowercased title. -/
def scoreTitle (ws : List Str) (titleLower : Str) : Nat :=
  (ws.map fun w => if strIncludes titleLower w then 20 else 0).sum

/-- Keyword term of the score: 10 points per query token contained in some
stored keyword. -/
def scoreKeywords (ws : List Str) (keywords : List Str) : Nat :=
  (ws.map fun w => if keywords.any (fun k => strIncludes k w) then 10 else 0).sum

/-- Schema-name term of the score: 15 points per query token contained in
some lowercased schema type name. -/
def scoreGraphql (ws : List Str) (gts : Option (List Str)) : Nat :=
  match gts with
  | none => 0
  | some ts =>
    (ws.map fun w => if ts.any (fun t => strIncludes (lowerStr t) w) then 15 else 0).sum

/-- Body term of the score: two points per regex match of a token against
the lowercased content, capped at 10 points per token. -/
def scoreContent (ws : List Str) (contentLower : Str) : Nat :=
  (ws.map fun w => min (2 * countMatches w contentLower) 10).sum

/-- Section term of the score: 5 points per token per section title
containing it. -/
def scoreSections (ws : List Str) (sections : List Str) : Nat :=
  (sections.map fun s =>
    (ws.map fun w => if strIncludes (lowerStr s) w then 5 else 0).sum).sum

/-- Score accumulated by the search loop for one document: title points,
exact-title bonus, keyword points, schema-name points, capped body points,
section points. -/
def scoreDoc (d : SearchDocument) (ws : List Str) (queryLower : Str) : Nat :=
  scoreTitle ws (lowerStr d.title) +
  (if lowerStr d.title = queryLower then 50 else 0) +
  scoreKeywords ws d.keywords +
  scoreGraphql ws d.graphqlTypes +
  scoreContent ws (lowerStr d.content) +
  scoreSections ws d.sections

/-- Match flags computed alongside the score (the matches record of the
source; renamed, matches being reserved here). -/
def matchFlags (d : SearchDocument) (ws : List Str) : MatchFlags :=
  { title := ws.any (fun w => strIncludes (lowerStr d.title) w),
    content := ws.any (fun w => 0 < countMatches w (lowerStr d.content)),
    keywords := ws.any (fun w => d.keywords.any fun k => strIncludes k w),
    graphql :=
      match d.graphqlTypes with
      | none => false
      | some ts => ws.any fun w => ts.any fun t => strIncludes (lowerStr t) w }

/-- First index of a character in a string (JS indexOf, none for -1). -/
def idxOfChar (c : Char) : Str → Option Nat
  | [] => none
  | x :: rest =>
    if x = c then some 0
    else (idxOfChar c rest).map Nat.succ

/-- Last index of a character in a string (JS lastIndexOf, none for -1). -/
def lastIdxOfChar (c : Char) (s : Str) : Option Nat :=
  (idxOfChar c s.reverse).map fun k => s.length - 1 - k

/-- Window count of extractSnippet: one point per query token contained in
the window. -/
def windowScore (ws : List Str) (window : Str) : Nat :=
  (ws.map fun w => if strIncludes window w then 1 else 0).sum

/-- Best window start of extractSnippet: candidate starts every 50
characters strictly below length minus 200, first strictly better candidate
wins. -/
def bestSnippetStart (contentLower : Str) (ws : List Str) : Nat :=
  let cands := (List.range ((contentLower.length - 200 + 49) / 50)).map fun k => 50 * k
  (cands.foldl (fun best i =>
    let sc := windowScore ws ((contentLower.drop i).take 200)
    if best.2 < sc then (i, sc) else best) ((0, 0) : Nat × Nat)).1

/-- Embeds SearchIndex.extractSnippet with its fixed window length of 200:
pick the best window, trim it, adjust each edge to a word boundary, add
ellipses when truncated.  The edge comparisons follow the source's JS
number arithmetic (an absent space is index -1, compared over Int). -/
def extractSnippet (content : Str) (ws : List Str) : Str :=
  let bestStart := bestSnippetStart (lowerStr content) ws
  let snippet := trimStr ((content.drop bestStart).take 200)
  let snippet2 :=
    if 0 < bestStart then
      let ws' :=
        match idxOfChar ' ' snippet with
        | none => snippet
        | some k => if 0 < k ∧ k < 20 then snippet.drop (k + 1) else snippet
      ['.', '.', '.'] ++ ws'
    else snippet
  if bestStart + 200 < content.length then
    let ls : Int :=
      match lastIdxOfChar ' ' snippet2 with
      | none => -1
      | some k => (k : Int)
    (if (snippet2.length : Int) - 20 < ls then snippet2.take ls.toNat else snippet2) ++
      ['.', '.', '.']
  else snippet2

/-- Document loop of search: filter, score, and collect results for
documents with positive score, in document order; the content-matching step
constructs a RegExp from each raw token, so the first filtered-in document
combined with a non-compiling token throws (error). -/
def collectResults (ws : List Str) (queryLower : Str) (cat ty : Option Str) :
    List SearchDocument → Except Unit (List SearchResult)
  | [] => .ok []
  | d :: rest =>
    if passesFilters cat ty d then
      if ws.all tokenCompiles then
        match collectResults ws queryLower cat ty rest with
        | .error e => .error e
        | .ok rs =>
          let sc := scoreDoc d ws queryLower
          .ok
            (if 0 < sc then
              { url := d.id, title := d.title,
                snippet := extractSnippet d.content ws,
                score := sc, matchInfo := matchFlags d ws } :: rs
            else rs)
      else .error ()
    else collectResults ws queryLower cat ty rest

/-- Stable descending insertion by score (JS Array.prototype.sort is stable;
the comparator is score difference). -/
def insertByScore (r : SearchResult) : List SearchResult → List SearchResult
  | [] => [r]
  | x :: xs => if x.score < r.score then r :: x :: xs else x :: insertByScore r xs

/-- Stable sort by descending score. -/
def sortByScoreDesc (l : List SearchResult) : List SearchResult :=
  l.foldr insertByScore []

/-- Embeds SearchIndex.search over the insertion-ordered document list:
tokenise, score every passing document, sort by descending score, cap at
limit.  A throw of the RegExp constructor surfaces as error. -/
def searchE (docs : List SearchDocument) (query : Str) (limit : Nat)
    (cat ty : Option Str) : Except Unit (List SearchResult) :=
  let queryLower := lowerStr query
  let ws := queryWords query
  match collectResults ws queryLower cat ty docs with
  | .error e => .error e
  | .ok rs => .ok ((sortByScoreDesc rs).take limit)

/-- Concrete indexed document used by closed evaluations. -/
def sampleDoc : SearchDocument :=
  { id := "https://ikas.dev/docs/intro".data,
    title := "Intro".data,
    content := "welcome to the docs".data,
    category := some "docs".data,
    type := some "general".data,
    keywords := ["docs".data, "intro".data],
    sections := [],
    graphqlTypes := none }






/-! Crawler, embedding SmartCrawler.crawl of src/scraper/crawler.ts.  The
fetch and store collaborators, the admission predicate (regex include and
exclude patterns over URLs), the link harvest applied to fetched HTML and
the sitemap parse are parameters of the embedding; a fetch result of none
models a thrown fetch error. -/

/-- Fetched page as far as the crawl loop reads it (only the html field of
a ScrapedPage is consumed by link extraction). -/
structure Page where
  html : Str

/-- Collaborators and options of one crawl invocation.  cache0 is the
content of the durable store when the crawl starts; a URL processed during
the crawl is never looked up again after its own store write, so the store
is constant from the loop's point of view. -/
structure CrawlEnv where
  fetch : Str → Option Page
  cache0 : Str → Option Page
  shouldCrawlOk : Str → Bool
  linksOf : Str → Str → List Str
  sitemapOf : Page → List Str
  maxDepth : Nat
  maxPages : Nat

/-- Frontier state of the crawl loop. -/
structure CrawlState where
  queue : List (Str × Nat)
  visited : List Str
  failed : List Str
deriving DecidableEq, Repr

/-- Crawl result as returned (the timing fields are dropped). -/
structure CrawlResult where
  urlsDiscovered : List Str
  urlsCrawled : List Str
  urlsFailed : List Str
deriving DecidableEq, Repr

/-- Fixed seed entry URLs of crawl. -/
def seedUrls : List Str :=
  ["https://ikas.dev/docs/intro".data,
   "https://ikas.dev/docs/api/admin-api/products".data,
   "https://ikas.dev/docs/api/admin-api/orders".data,
   "https://ikas.dev/docs/api/admin-api/customers".data,
   "https://ikas.dev/playground".data]

/-- Sitemap URL fetched best-effort before the loop. -/
def sitemapUrl : Str := "https://ikas.dev/sitemap.xml".data

/-- One iteration body of the crawl loop (the loop guard is checked by
crawlLoop): dequeue; skip visited or too-deep URLs; otherwise mark visited,
then either replay links from the store or fetch, record a fetch failure,
and enqueue admissible unvisited harvested links one level deeper. -/
def crawlStep (env : CrawlEnv) (s : CrawlState) : CrawlState :=
  match s.queue with
  | [] => s
  | (url, depth) :: rest =>
    if url ∈ s.visited ∨ env.maxDepth < depth then
      { s with queue := rest }
    else
      let visited' := s.visited ++ [url]
      match env.cache0 url with
      | none =>
        match env.fetch url with
        | none =>
          { queue := rest, visited := visited', failed := setAdd s.failed url }
        | some page =>
          let links := env.linksOf page.html url
          let fresh := (links.filter fun l =>
            env.shouldCrawlOk l && !(decide (l ∈ visited'))).map fun l => (l, depth + 1)
          { queue := rest ++ fresh, visited := visited', failed := s.failed }
      | some page =>
        let links := env.linksOf page.html url
        let fresh := (links.filter fun l =>
          env.shouldCrawlOk l && !(decide (l ∈ visited'))).map fun l => (l, depth + 1)
        { queue := rest ++ fresh, visited := visited', failed := s.failed }

/-- Embeds the while-loop of crawl: run iterations while the queue is
nonempty and the visited count is below maxPages.  Termination: each
iteration either leaves visited unchanged and shortens the queue, or (below
the cap) grows visited by one. -/
def crawlLoop (env : CrawlEnv) (s : CrawlState) : CrawlState :=
  if h : s.queue ≠ [] ∧ s.visited.length < env.maxPages then
    crawlLoop env (crawlStep env s)
  else s
termination_by (env.maxPages - s.visited.length, s.queue.length)
decreasing_by
  have hmeas : ((crawlStep env s).visited = s.visited ∧
      (crawlStep env s).queue.length < s.queue.length) ∨
      (crawlStep env s).visited.length = s.visited.length + 1 := by
    cases hsq : s.queue with
    | nil => exact absurd hsq h.1
    | cons ud rest =>
      obtain ⟨url, depth⟩ := ud
      simp only [crawlStep, hsq]
      split
      · exact Or.inl ⟨rfl, by simp [hsq]⟩
      · cases env.cache0 url with
        | none =>
          cases env.fetch url with
          | none => exact Or.inr (by simp)
          | some page => exact Or.inr (by simp)
        | some page => exact Or.inr (by simp)
  rcases hmeas with ⟨hv, hql⟩ | hv
  · rw [hv]
    exact Prod.Lex.right _ hql
  · exact Prod.Lex.left _ _ (by omega)

/-- Embeds the seeding phase of crawl: enqueue the fixed seeds at depth 0,
then best-effort sitemap URLs (fetch failure yields none and is swallowed),
admission-filtered, also at depth 0. -/
def crawlInit (env : CrawlEnv) : CrawlState :=
  let sitemapUrls :=
    match env.fetch sitemapUrl with
    | none => []
    | some p => env.sitemapOf p
  { queue := seedUrls.map (fun u => (u, 0)) ++
      (sitemapUrls.filter env.shouldCrawlOk).map fun u => (u, 0),
    visited := [], failed := [] }

/-- Embeds SmartCrawler.crawl: seed, loop, and package the result
(urlsCrawled is visited minus failed, in visited order). -/
def crawl (env : CrawlEnv) : CrawlResult :=
  let fin := crawlLoop env (crawlInit env)
  { urlsDiscovered := fin.visited,
    urlsCrawled := fin.visited.filter fun u => !(decide (u ∈ fin.failed)),
    urlsFailed := fin.failed }

/-- Concrete collaborator set where every fetch fails and the store is
empty. -/
def allFailEnv (sc : Str → Bool) (el : Str → Str → List Str)
    (sp : Page → List Str) : CrawlEnv :=
  { fetch := fun _ => none, cache0 := fun _ => none, shouldCrawlOk := sc,
    linksOf := el, sitemapOf := sp, maxDepth := 10, maxPages := 500 }

/-! Link harvesting, embedding SmartCrawler.extractLinks.  The WHATWG URL
object is modelled by UrlParts with a parser for the scheme://host/path
shape (userinfo, ports and dot-segment normalization are outside the model;
none of the URLs considered use them). -/

/-- Parsed URL: scheme, host, path (with any query, possibly empty),
fragment (without the hash sign, empty when absent). -/
structure UrlParts where
  scheme : Str
  host : Str
  path : Str
  fragment : Str
deriving DecidableEq, Repr

/-- Splits at the first occurrence of sep, none when absent. -/
def splitOnce (sep : Str) : Str → Option (Str × Str)
  | [] => none
  | c :: rest =>
    if sep ≠ [] ∧ sep.isPrefixOf (c :: rest) then some ([], (c :: rest).drop sep.length)
    else (splitOnce sep rest).map fun p => (c :: p.1, p.2)

/-- Scheme characters accepted by the URL parser model. -/
def isSchemeChar (c : Char) : Bool :=
  c.isAlphanum || c == '+' || c == '-' || c == '.'

/-- Parses an absolute URL of the scheme://host... shape; none models a
throwing URL constructor (caught and skipped by extractLinks). -/
def parseAbsUrl (s : Str) : Option UrlParts :=
  match splitOnce [':', '/', '/'] s with
  | none => none
  | some sr =>
    if sr.1 = [] ∨ !(sr.1.all isSchemeChar) then none
    else
      let host := sr.2.takeWhile fun c => !(c == '/' || c == '?' || c == '#')
      if host = [] then none
      else
        let afterHost := sr.2.drop host.length
        let pathq := afterHost.takeWhile fun c => !(c == '#')
        some { scheme := lowerStr sr.1, host := lowerStr host, path := pathq,
               fragment := (afterHost.drop pathq.length).drop 1 }

/-- Origin of a parsed URL (scheme://host; ports are outside the model). -/
def urlOrigin (u : UrlParts) : Str :=
  u.scheme ++ [':', '/', '/'] ++ u.host

/-- Serialization after clearing the hash, as toString produces it (an
empty path serializes as a single slash). -/
def serializeNoHash (u : UrlParts) : Str :=
  urlOrigin u ++ (if u.path = [] then ['/'] else u.path)

/-- Directory prefix of a base path: up to and including the last slash. -/
def dirOfPath (p : Str) : Str :=
  match lastIdxOfChar '/' p with
  | none => ['/']
  | some k => p.take (k + 1)

/-- Resolution of a relative href against a base URL, as new
URL(href, baseUrl): replace the last path segment (or the query for a
query-only href) and take over the href's fragment. -/
def resolveRelative (base : UrlParts) (href : Str) : UrlParts :=
  let noFrag := href.takeWhile fun c => !(c == '#')
  let frag := (href.drop noFrag.length).drop 1
  let path :=
    if ['?'].isPrefixOf noFrag then (base.path.takeWhile fun c => !(c == '?')) ++ noFrag
    else dirOfPath base.path ++ noFrag
  { scheme := base.scheme, host := base.host, path := path, fragment := frag }

/-- Site prefix against which extractLinks filters harvested links (the
baseUrl field of the crawler). -/
def siteBase : Str := "https://ikas.dev".data

/-- Processing of one anchor href by extractLinks: build an absolute URL
string by the prefix cascade of the source (fragment-only hrefs are
dropped), re-parse it, clear the fragment, and serialize; none models every
skipped href (fragment-only, or a throwing URL constructor). -/
def resolveHref (base : UrlParts) (href : Str) : Option Str :=
  let absUrl : Option Str :=
    if "http://".data.isPrefixOf href ∨ "https://".data.isPrefixOf href then some href
    else if ['/', '/'].isPrefixOf href then some (base.scheme ++ [':'] ++ href)
    else if ['/'].isPrefixOf href then some (urlOrigin base ++ href)
    else if ['#'].isPrefixOf href then none
    else
      let r := resolveRelative base href
      some (serializeNoHash r ++ (if r.fragment = [] then [] else '#' :: r.fragment))
  match absUrl with
  | none => none
  | some a => (parseAbsUrl a).map serializeNoHash

/-- Embeds SmartCrawler.extractLinks over the list of anchor hrefs of the
page: resolve each href against the page URL, keep it when the cleaned URL
string starts with the site prefix, deduplicate preserving insertion order;
none models the throw on an unparseable page URL. -/
def extractLinks (hrefs : List Str) (baseUrl : Str) : Option (List Str) :=
  (parseAbsUrl baseUrl).map fun base =>
    hrefs.foldl (fun links href =>
      match resolveHref base href with
      | none => links
      | some cleanUrl =>
        if siteBase.isPrefixOf cleanUrl then setAdd links cleanUrl else links) []

/-- Bottom-to-top flattening of the open stack frames: each frame
contributes its section followed by the preorder of its attached
children. -/
def framesFlatten : List Frame → List FlatSection
  | [] => []
  | f :: rest => framesFlatten rest ++ (f.sec :: preorderF f.children)

/-- Well-formedness of an open frame: its attached children are valid trees
strictly deeper than the frame's own section. -/
def FrameOk (f : Frame) : Prop :=
  forestDeepOk f.children = true ∧ ∀ t ∈ f.children, f.sec.level < treeLevel t

/-- Ordering down the stack: the frame above sits at a strictly greater
heading level. -/
def frameAbove (a b : Frame) : Prop := b.sec.level < a.sec.level

/-- Crawl loop specialised to an always-failing fetch over an empty store:
every admissible dequeued URL is visited and recorded as failed, and no
links are ever enqueued. -/
def allFailRun (maxDepth maxPages : Nat) :
    List (Str × Nat) → List Str → List Str → CrawlState
  | [], v, f => { queue := [], visited := v, failed := f }
  | (u, d) :: rest, v, f =>
    if v.length < maxPages then
      if u ∈ v ∨ maxDepth < d then allFailRun maxDepth maxPages rest v f
      else allFailRun maxDepth maxPages rest (v ++ [u]) (setAdd f u)
    else { queue := (u, d) :: rest, visited := v, failed := f }

/-- Concrete flat sections with heading levels 1, 3, 2, as extractSections
produces for a document whose headings appear in that order. -/
def exSections : List FlatSection :=
  [⟨"a".data, "a".data, 1, []⟩, ⟨"b".data, "b".data, 3, []⟩,
   ⟨"c".data, "c".data, 2, []⟩]

/-- Concrete document whose title is exactly the query used in the scoring
witness. -/
def docProduct : SearchDocument :=
  { id := "https://ikas.dev/docs/p".data, title := "product".data,
    content := [], category := none, type := none, keywords := [],
    sections := [], graphqlTypes := none }

/-- Concrete document matching that query only in its body. -/
def docGuide : SearchDocument :=
  { id := "https://ikas.dev/docs/g".data, title := "guide".data,
    content := "product product".data, category := none, type := none,
    keywords := [], sections := [], graphqlTypes := none }

/-- Concrete document whose body ends with the text of an end-anchored
query token. -/
def docBody : SearchDocument :=
  { id := "https://ikas.dev/docs/b".data, title := "guide".data,
    content := "abc".data, category := none, type := none,
    keywords := [], sections := [], graphqlTypes := none }

/-! Theorems. -/

/-- Appending to the text preserves a prefix. -/
theorem isPrefixOf_append {p l t : Str} (h : p.isPrefixOf l = true) :
    p.isPrefixOf (l ++ t) = true := by
  rw [List.isPrefixOf_iff_prefix] at h ⊢
  exact h.trans (List.prefix_append l t)

/-- Prefixes of an appended text that fit inside the left part are prefixes
of the left part. -/
theorem isPrefixOf_of_append {p l t : Str} (h : p.isPrefixOf (l ++ t) = true)
    (hlen : p.length ≤ l.length) : p.isPrefixOf l = true := by
  rw [List.isPrefixOf_iff_prefix] at h ⊢
  rw [List.prefix_iff_eq_take] at h ⊢
  exact h.trans (List.take_append_of_le_length hlen)

/-- Occurrence counting never drops below the accumulator. -/
theorem countOccAux_le (p : Str) :
    ∀ (s : Str) (skip cnt : Nat), cnt ≤ countOccAux p skip cnt s := by
  intro s
  induction s with
  | nil => intro skip cnt; simp [countOccAux]
  | cons c rest ih =>
    intro skip cnt
    simp only [countOccAux]
    split
    · exact ih _ _
    · split
      · exact (Nat.le_succ cnt).trans (ih _ _)
      · exact ih _ _

/-- Texts shorter than the pattern contain no occurrence. -/
theorem countOccAux_short (p : Str) :
    ∀ (s : Str) (skip cnt : Nat), s.length < p.length →
      countOccAux p skip cnt s = cnt := by
  intro s
  induction s with
  | nil => intro skip cnt _; rfl
  | cons c rest ih =>
    intro skip cnt hlen
    simp only [List.length_cons] at hlen
    simp only [countOccAux]
    split
    · exact ih _ _ (by omega)
    · split
      · next hp =>
        have h1 := (List.isPrefixOf_iff_prefix.1 hp).length_le
        simp only [List.length_cons] at h1
        exact absurd h1 (by omega)
      · exact ih _ _ (by omega)

/-- Appending text never decreases the occurrence count. -/
theorem countOccAux_append (p : Str) :
    ∀ (s t : Str) (skip cnt : Nat),
      countOccAux p skip cnt s ≤ countOccAux p skip cnt (s ++ t) := by
  intro s
  induction s with
  | nil =>
    intro t skip cnt
    simpa [countOccAux] using countOccAux_le p t skip cnt
  | cons c rest ih =>
    intro t skip cnt
    simp only [List.cons_append, countOccAux, List.append_eq]
    by_cases hskip : 0 < skip
    · simp only [if_pos hskip]
      exact ih t _ _
    · simp only [if_neg hskip]
      by_cases hp : p.isPrefixOf (c :: rest) = true
      · have hp2 : p.isPrefixOf (c :: (rest ++ t)) = true := by
          have h2 := isPrefixOf_append (t := t) hp
          simpa using h2
        rw [if_pos hp, if_pos hp2]
        exact ih t _ _
      · rw [if_neg hp]
        by_cases hp2 : p.isPrefixOf (c :: (rest ++ t)) = true
        · rw [if_pos hp2]
          have hshort : rest.length < p.length := by
            by_contra hge
            exact hp (isPrefixOf_of_append (l := c :: rest) (by simpa using hp2)
              (by simp; omega))
          rw [countOccAux_short p rest _ _ hshort]
          exact (Nat.le_succ cnt).trans (countOccAux_le p (rest ++ t) _ _)
        · rw [if_neg hp2]
          exact ih t _ _

/-- Appending text never decreases the occurrence count. -/
theorem countOcc_append (p s t : Str) : countOcc p s ≤ countOcc p (s ++ t) :=
  countOccAux_append p s t 0 0

/-- Classification stores the candidate text itself as the fragment's raw
text. -/
theorem parseGraphQLSchema_raw {code : Str} {s : GraphQLSchema}
    (h : parseGraphQLSchema code = some s) : s.raw = code := by
  unfold parseGraphQLSchema at h
  cases hc : classifyKind code with
  | none => rw [hc] at h; cases h
  | some kn => rw [hc] at h; cases h; rfl

/-- Values inserted by one deduplication round satisfy any predicate holding
of the stored values and of the inserted schema. -/
theorem dedupInsert_pred {P : GraphQLSchema → Prop} {acc : List ((SchemaKind × Str × Nat) × GraphQLSchema)}
    {x : GraphQLSchema} (ha : ∀ p ∈ acc, P p.2) (hx : P x) :
    ∀ q ∈ dedupInsert acc x, P q.2 := by
  intro q hq
  unfold dedupInsert at hq
  split at hq
  · rcases List.mem_map.1 hq with ⟨p, hp, rfl⟩
    split
    · exact hx
    · exact ha p hp
  · rcases List.mem_append.1 hq with hq | hq
    · exact ha q hq
    · simp only [List.mem_singleton] at hq
      rw [hq]
      exact hx

/-- Values accumulated by the deduplication fold come from the input list
(stated through a predicate). -/
theorem foldl_dedupInsert_pred (P : GraphQLSchema → Prop) :
    ∀ (l : List GraphQLSchema) (acc : List ((SchemaKind × Str × Nat) × GraphQLSchema)),
      (∀ p ∈ acc, P p.2) → (∀ x ∈ l, P x) →
      ∀ p ∈ l.foldl dedupInsert acc, P p.2 := by
  intro l
  induction l with
  | nil => intro acc ha _ p hp; exact ha p hp
  | cons x xs ih =>
    intro acc ha hl p hp
    rw [List.foldl_cons] at hp
    exact ih _ (dedupInsert_pred ha (hl x (by simp)))
      (fun y hy => hl y (by simp [hy])) p hp

/-- Deduplication only returns schemas of the input list. -/
theorem mem_deduplicateSchemas {l : List GraphQLSchema} {s : GraphQLSchema}
    (h : s ∈ deduplicateSchemas l) : s ∈ l := by
  unfold deduplicateSchemas at h
  rcases List.mem_map.1 h with ⟨p, hp, rfl⟩
  exact foldl_dedupInsert_pred (· ∈ l) l [] (by simp) (fun x hx => hx) p hp

/-- Claim C1 (code bug shown on the failing input): two code blocks that
both classify to kind type and name Product, with raw texts of lengths 23
and 36, are BOTH retained by extraction — the deduplication key of
deduplicateSchemas includes the raw length, so fragments sharing (kind,
name) but differing in length never collide and the keep-the-longer branch
cannot fire; the claim (and the source's own comments) say only the longer
raw text survives. -/
theorem dedup_retains_both_lengths :
    (extractSchemas [] ["type Product \x7b id: ID \x7d".data,
        "type Product \x7b id: ID name: String \x7d".data]).map
      (fun s => (s.type, s.name, s.raw.length)) =
    [(SchemaKind.type, "Product".data, 23),
     (SchemaKind.type, "Product".data, 36)] := by decide

/-- Claim C2 (code bug shown on the failing input): with one indexed
document and the query of three open parentheses, search does not return a
result list — the content-matching step builds a RegExp straight from the
raw token, whose constructor throws a SyntaxError, modelled here as the
error outcome. -/
theorem search_throws_on_unbalanced_token :
    searchE [sampleDoc] "(((".data 10 none none = Except.error () := by rfl

/-- Claim C3 (counterexample): on the single-line candidate text of the
claim, the classifier does NOT return the claimed field list — the field
pattern of extractFields is anchored to the end of a line, so the one-line
form yields no field match at all. -/
theorem single_line_fields_refuted :
    (parseGraphQLSchema "type Product \x7b id: ID name: String \x7d".data).map
      (fun s => (s.type, s.name, s.fields)) ≠
    some (SchemaKind.type, "Product".data,
      some [⟨"id".data, "ID".data, none⟩,
            ⟨"name".data, "String".data, none⟩]) := by decide

/-- Claim C3 (amended): on the single-line candidate text, the classifier
returns kind type and name Product with an absent field list (fields are
only extracted when each field definition ends its own line). -/
theorem single_line_classification :
    parseGraphQLSchema "type Product \x7b id: ID name: String \x7d".data =
      some ⟨"type Product \x7b id: ID name: String \x7d".data, SchemaKind.type,
        "Product".data, none⟩ := by decide

/-- Claim C9 (counterexample): a script-embedded schema string thirteen
characters long (as matched, with its quotes, by the script-tag scan of
extractSchemas) is classified and returned — the 20-character minimum is
applied only to code blocks, not to script-embedded candidates. -/
theorem script_fragment_below_min_length :
    ((extractSchemas ["\x22type A \x7bx: B\x7d\x22".data] []).map
      fun s => s.raw.length) = [13] ∧
    (extractSchemas ["\x22type A \x7bx: B\x7d\x22".data] []).any
      (fun s => decide (s.raw.length < 20)) = true := by decide

/-- Claim C9 (amended): every fragment extracted from the code-block
candidate source has a raw text of at least 20 characters (the candidate is
trimmed and rejected below that length before classification); the
script-embedded source carries no such bound. -/
theorem code_block_fragments_min_length :
    ∀ (blocks : List Str) (s : GraphQLSchema),
      s ∈ extractSchemas [] blocks → 20 ≤ s.raw.length := by
  intro blocks s hs
  unfold extractSchemas at hs
  have h2 := mem_deduplicateSchemas hs
  simp only [List.filterMap_nil, List.nil_append] at h2
  rcases List.mem_filterMap.1 h2 with ⟨b, _, hb⟩
  by_cases hlen : (trimStr b).length < 20
  · rw [if_pos hlen] at hb
    cases hb
  · rw [if_neg hlen] at hb
    rw [parseGraphQLSchema_raw hb]
    omega

/-- Witness for the amended C9 statement at a concrete 23-character code
block. -/
theorem code_block_fragments_min_length_witness :
    20 ≤ (⟨"type Product \x7b id: ID \x7d".data, SchemaKind.type,
      "Product".data, none⟩ : GraphQLSchema).raw.length :=
  code_block_fragments_min_length ["type Product \x7b id: ID \x7d".data]
    ⟨"type Product \x7b id: ID \x7d".data, SchemaKind.type, "Product".data, none⟩
    (by decide)

/-- Kind assigned by the pattern cascade is never the interface variant. -/
theorem classifyKind_not_interface {code : Str} {kn : SchemaKind × Str}
    (h : classifyKind code = some kn) : kn.1 ≠ SchemaKind.interface := by
  unfold classifyKind at h
  split at h
  · cases h; intro hco; simp at hco
  · split at h
    · cases h; intro hco; simp at hco
    · split at h
      · cases h; intro hco; simp at hco
      · split at h
        · cases h; intro hco; simp at hco
        · split at h
          · cases h; intro hco; simp at hco
          · split at h
            · cases h
              unfold opKind
              split <;> (intro hco; simp at hco)
            · cases h

/-- Claim C10: the classifier never returns a fragment of kind interface
(although interface is a declared variant of the kind set), and whenever
the first matching rule is the type-or-interface pattern, the returned
fragment has kind type and the captured name — also for blocks declared
with the interface keyword. -/
theorem classifier_interface_collapses_to_type :
    (∀ (code : Str) (s : GraphQLSchema),
      parseGraphQLSchema code = some s → s.type ≠ SchemaKind.interface) ∧
    (∀ (code : Str) (kn : Str × Str),
      patTypeNamed "Query".data code = false →
      patTypeNamed "Mutation".data code = false →
      patInput code = none → patEnum code = none →
      patType code = some kn →
      ∃ s, parseGraphQLSchema code = some s ∧
        s.type = SchemaKind.type ∧ s.name = kn.2) := by
  constructor
  · intro code s h
    unfold parseGraphQLSchema at h
    cases hc : classifyKind code with
    | none => rw [hc] at h; cases h
    | some kn =>
      rw [hc] at h
      cases h
      exact classifyKind_not_interface hc
  · intro code kn hq hm hi he ht
    refine ⟨⟨code, SchemaKind.type, kn.2, extractFields code⟩, ?_, rfl, rfl⟩
    unfold parseGraphQLSchema classifyKind
    rw [hq, hm, hi, he, ht]
    rfl

/-- Witness for C10 at a concrete interface block, discharging every
pattern-miss hypothesis. -/
theorem classifier_interface_collapses_to_type_witness :
    ∃ s, parseGraphQLSchema "interface Node \x7b id: ID \x7d".data = some s ∧
      s.type = SchemaKind.type ∧ s.name = "Node".data :=
  classifier_interface_collapses_to_type.2
    "interface Node \x7b id: ID \x7d".data ("interface".data, "Node".data)
    (by decide) (by decide) (by decide) (by decide) (by decide)

/-- Preorder of a forest distributes over appending. -/
theorem preorderF_append :
    ∀ (a b : List SecTree), preorderF (a ++ b) = preorderF a ++ preorderF b := by
  intro a b
  induction a with
  | nil => simp [preorderF]
  | cons t ts ih => simp [preorderF, ih]

/-- Preorder of a closed frame: its section, then its children. -/
theorem preorderT_closeFrame (f : Frame) :
    preorderT (closeFrame f) = f.sec :: preorderF f.children := rfl

/-- Child-validity distributes over appending forests. -/
theorem forestDeepOk_append :
    ∀ (a b : List SecTree), forestDeepOk (a ++ b) = (forestDeepOk a && forestDeepOk b) := by
  intro a b
  induction a with
  | nil => simp [forestDeepOk]
  | cons t ts ih => simp [forestDeepOk, ih, Bool.and_assoc]

/-- Closing a well-formed frame yields a tree whose children are strictly
deeper at every node. -/
theorem treeDeepOk_closeFrame {f : Frame} (h : FrameOk f) :
    treeDeepOk (closeFrame f) = true := by
  simp only [closeFrame, treeDeepOk, Bool.and_eq_true, List.all_eq_true]
  exact ⟨fun c hc => by simpa using h.2 c hc, h.1⟩

/-- Attaching a strictly deeper valid child keeps a frame well-formed. -/
theorem frameOk_attach {g : Frame} {child : SecTree} (hg : FrameOk g)
    (hc : treeDeepOk child = true) (hl : g.sec.level < treeLevel child) :
    FrameOk { g with children := g.children ++ [child] } := by
  constructor
  · rw [forestDeepOk_append]
    simp [hg.1, forestDeepOk, hc]
  · intro t ht
    rcases List.mem_append.1 ht with ht | ht
    · exact hg.2 t ht
    · simp only [List.mem_singleton] at ht
      subst ht
      exact hl

/-- Flattening identity for the attach-and-pop loop: the popped child ends
up exactly at the end of the flattened state. -/
theorem popAux_flat :
    ∀ (stack : List Frame) (roots : List SecTree) (child : SecTree) (lvl : Nat),
      preorderF (popAux lvl child stack roots).2 ++
          framesFlatten (popAux lvl child stack roots).1 =
        preorderF roots ++ framesFlatten stack ++ preorderT child := by
  intro stack
  induction stack with
  | nil =>
    intro roots child lvl
    simp [popAux, framesFlatten, preorderF_append, preorderF]
  | cons g gs ih =>
    intro roots child lvl
    simp only [popAux]
    split
    · rw [ih]
      simp [framesFlatten, preorderT_closeFrame, preorderF_append, preorderF,
        List.append_assoc]
    · simp [framesFlatten, preorderF_append, preorderF, List.append_assoc]

/-- Flattening identity for the pop phase of one hierarchy step. -/
theorem popFrames_flat (lvl : Nat) (stack : List Frame) (roots : List SecTree) :
    preorderF (popFrames lvl stack roots).2 ++
        framesFlatten (popFrames lvl stack roots).1 =
      preorderF roots ++ framesFlatten stack := by
  cases stack with
  | nil => simp [popFrames, framesFlatten]
  | cons f rest =>
    simp only [popFrames]
    split
    · rw [popAux_flat]
      simp [framesFlatten, preorderT_closeFrame, List.append_assoc]
    · rfl

/-- One hierarchy step appends exactly its section to the flattened state. -/
theorem stepSec_flat (st : List Frame × List SecTree) (s : FlatSection) :
    preorderF (stepSec st s).2 ++ framesFlatten (stepSec st s).1 =
      (preorderF st.2 ++ framesFlatten st.1) ++ [s] := by
  unfold stepSec
  simp only [framesFlatten, preorderF, List.append_nil]
  rw [← List.append_assoc, popFrames_flat]

/-- The hierarchy fold appends the processed sections, in order, to the
flattened state. -/
theorem foldl_stepSec_flat :
    ∀ (flat : List FlatSection) (st : List Frame × List SecTree),
      preorderF (flat.foldl stepSec st).2 ++ framesFlatten (flat.foldl stepSec st).1 =
        (preorderF st.2 ++ framesFlatten st.1) ++ flat := by
  intro flat
  induction flat with
  | nil => intro st; simp
  | cons s rest ih =>
    intro st
    rw [List.foldl_cons, ih, stepSec_flat]
    simp

/-- Popping at level 0 empties the stack (attach loop). -/
theorem popAux_zero_stack :
    ∀ (stack : List Frame) (roots : List SecTree) (child : SecTree),
      (popAux 0 child stack roots).1 = [] := by
  intro stack
  induction stack with
  | nil => intro roots child; rfl
  | cons g gs ih =>
    intro roots child
    simp only [popAux, if_pos (Nat.zero_le _)]
    exact ih _ _

/-- Popping at level 0 empties the stack. -/
theorem popFrames_zero_stack (stack : List Frame) (roots : List SecTree) :
    (popFrames 0 stack roots).1 = [] := by
  cases stack with
  | nil => rfl
  | cons f rest =>
    simp only [popFrames, if_pos (Nat.zero_le _)]
    exact popAux_zero_stack _ _ _

/-- Invariant preservation through the attach-and-pop loop: frames stay
well-formed, stack levels stay strictly increasing toward the top, roots
stay valid, and the resulting top (if any) sits strictly below lvl. -/
theorem popAux_ok :
    ∀ (stack : List Frame) (roots : List SecTree) (child : SecTree) (lvl : Nat),
      treeDeepOk child = true →
      (∀ f ∈ stack, FrameOk f) →
      List.Chain' frameAbove stack →
      forestDeepOk roots = true →
      (∀ g ∈ stack.head?, g.sec.level < treeLevel child) →
      (∀ f ∈ (popAux lvl child stack roots).1, FrameOk f) ∧
      List.Chain' frameAbove (popAux lvl child stack roots).1 ∧
      forestDeepOk (popAux lvl child stack roots).2 = true ∧
      (∀ g ∈ (popAux lvl child stack roots).1.head?, g.sec.level < lvl) := by
  intro stack
  induction stack with
  | nil =>
    intro roots child lvl hc _ _ hr _
    refine ⟨by simp [popAux], by simp [popAux], ?_, by simp [popAux]⟩
    simp only [popAux]
    rw [forestDeepOk_append]
    simp [hr, forestDeepOk, hc]
  | cons g gs ih =>
    intro roots child lvl hc hf hch hr hh
    have hgOk : FrameOk g := hf g (by simp)
    have hgl : g.sec.level < treeLevel child := hh g (by simp)
    have hgOk' : FrameOk { g with children := g.children ++ [child] } :=
      frameOk_attach hgOk hc hgl
    simp only [popAux]
    split
    · have hc' : treeDeepOk (closeFrame { g with children := g.children ++ [child] }) = true :=
        treeDeepOk_closeFrame hgOk'
      have hh' : ∀ g2 ∈ gs.head?, g2.sec.level <
          treeLevel (closeFrame { g with children := g.children ++ [child] }) := by
        intro g2 hg2
        exact (List.chain'_cons'.1 hch).1 g2 hg2
      exact ih roots _ lvl hc' (fun f hfm => hf f (by simp [hfm]))
        (List.chain'_cons'.1 hch).2 hr hh'
    · next hnot =>
      refine ⟨?_, ?_, hr, ?_⟩
      · intro f hfm
        rcases List.mem_cons.1 hfm with rfl | hfm
        · exact hgOk'
        · exact hf f (by simp [hfm])
      · refine List.chain'_cons'.2 ⟨?_, (List.chain'_cons'.1 hch).2⟩
        intro y hy
        exact (List.chain'_cons'.1 hch).1 y hy
      · intro g2 hg2
        simp only [List.head?_cons, Option.mem_some_iff] at hg2
        subst hg2
        show g.sec.level < lvl
        omega

/-- Invariant preservation through the pop phase of one hierarchy step. -/
theorem popFrames_ok (lvl : Nat) (stack : List Frame) (roots : List SecTree)
    (hf : ∀ f ∈ stack, FrameOk f) (hch : List.Chain' frameAbove stack)
    (hr : forestDeepOk roots = true) :
    (∀ f ∈ (popFrames lvl stack roots).1, FrameOk f) ∧
    List.Chain' frameAbove (popFrames lvl stack roots).1 ∧
    forestDeepOk (popFrames lvl stack roots).2 = true ∧
    (∀ g ∈ (popFrames lvl stack roots).1.head?, g.sec.level < lvl) := by
  cases stack with
  | nil => exact ⟨by simp [popFrames], by simp [popFrames], by simpa [popFrames] using hr,
      by simp [popFrames]⟩
  | cons f rest =>
    simp only [popFrames]
    split
    · have hfOk : FrameOk f := hf f (by simp)
      refine popAux_ok rest roots (closeFrame f) lvl (treeDeepOk_closeFrame hfOk)
        (fun g hg => hf g (by simp [hg])) (List.chain'_cons'.1 hch).2 hr ?_
      intro g hg
      exact (List.chain'_cons'.1 hch).1 g hg
    · next hnot =>
      refine ⟨hf, hch, hr, ?_⟩
      intro g hg
      simp only [List.head?_cons, Option.mem_some_iff] at hg
      subst hg
      omega

/-- Invariant preservation through the whole hierarchy fold. -/
theorem foldl_stepSec_ok :
    ∀ (flat : List FlatSection) (st : List Frame × List SecTree),
      (∀ f ∈ st.1, FrameOk f) → List.Chain' frameAbove st.1 →
      forestDeepOk st.2 = true →
      (∀ f ∈ (flat.foldl stepSec st).1, FrameOk f) ∧
      List.Chain' frameAbove (flat.foldl stepSec st).1 ∧
      forestDeepOk (flat.foldl stepSec st).2 = true := by
  intro flat
  induction flat with
  | nil => intro st hf hch hr; exact ⟨hf, hch, hr⟩
  | cons s rest ih =>
    intro st hf hch hr
    rw [List.foldl_cons]
    have hpop := popFrames_ok s.level st.1 st.2 hf hch hr
    refine ih (stepSec st s) ?_ ?_ ?_
    · intro f hfm
      rcases List.mem_cons.1 hfm with rfl | hfm
      · exact ⟨rfl, by simp⟩
      · exact hpop.1 f hfm
    · refine List.chain'_cons'.2 ⟨?_, hpop.2.1⟩
      intro y hy
      exact hpop.2.2.2 y hy
    · exact hpop.2.2.1

/-- Claim C4 (counterexample): for the heading sequence of levels 1, 3, 2
(heading 3 opens under heading 1, then heading 2 also attaches under
heading 1), the produced tree has a node whose children sit at levels 3 and
2 — siblings do NOT share one level, refuting the claimed invariant as a
whole at this concrete input. -/
theorem section_siblings_not_uniform :
    ¬ (forestDeepOk (buildSectionHierarchy exSections) = true ∧
       forestSiblingsUniform (buildSectionHierarchy exSections) = true ∧
       preorderF (buildSectionHierarchy exSections) = exSections) := by decide

/-- Claim C4 (amended): every Section tree produced by the hierarchy
builder satisfies: each child's level is strictly greater than its parent's
level, and the pre-order traversal of the tree lists the sections in their
document order; sections attached to the same parent need not share one
level. -/
theorem section_trees_deep_and_ordered :
    ∀ flat : List FlatSection,
      forestDeepOk (buildSectionHierarchy flat) = true ∧
      preorderF (buildSectionHierarchy flat) = flat := by
  intro flat
  unfold buildSectionHierarchy
  have hinv := foldl_stepSec_ok flat ([], []) (by simp) (by simp) rfl
  have hfin := popFrames_ok 0 (flat.foldl stepSec ([], [])).1
    (flat.foldl stepSec ([], [])).2 hinv.1 hinv.2.1 hinv.2.2
  constructor
  · exact hfin.2.2.1
  · have h1 := popFrames_flat 0 (flat.foldl stepSec ([], [])).1
      (flat.foldl stepSec ([], [])).2
    have h2 := foldl_stepSec_flat flat ([], [])
    rw [popFrames_zero_stack] at h1
    simp only [framesFlatten, List.append_nil] at h1
    simp only [preorderF, framesFlatten, List.nil_append] at h2
    rw [h1, h2]

/-- Chunks produced by the whitespace split are infixes of the input
(joint statement for the two mutual split states). -/
theorem splitWs_infix_aux :
    ∀ s : Str, (∀ (cur ch : Str), ch ∈ splitWsGo cur s → ch <:+: (cur.reverse ++ s)) ∧
      (∀ ch : Str, ch ∈ splitWsSkip s → ch <:+: s) := by
  intro s
  induction s with
  | nil =>
    constructor
    · intro cur ch hch
      simp only [splitWsGo, List.mem_singleton] at hch
      subst hch
      exact ⟨[], [], by simp⟩
    · intro ch hch
      simp only [splitWsSkip, List.mem_singleton] at hch
      subst hch
      exact List.nil_infix
  | cons c rest ih =>
    constructor
    · intro cur ch hch
      simp only [splitWsGo] at hch
      split at hch
      · rcases List.mem_cons.1 hch with rfl | hch
        · exact (List.prefix_append _ _).isInfix
        · exact (ih.2 ch hch).trans ⟨cur.reverse ++ [c], [], by simp⟩
      · have h2 := ih.1 (c :: cur) ch hch
        rw [List.reverse_cons, List.append_assoc, List.singleton_append] at h2
        exact h2
    · intro ch hch
      simp only [splitWsSkip] at hch
      split at hch
      · exact List.infix_cons (ih.2 ch hch)
      · have h2 := ih.1 [c] ch hch
        simpa using h2

/-- Chunks of the whitespace split are infixes of the split string. -/
theorem mem_splitWs_substring {s ch : Str} (h : ch ∈ splitWs s) : ch <:+: s := by
  have h2 := (splitWs_infix_aux s).1 [] ch h
  simpa using h2

/-- Infixes are found by the substring test. -/
theorem strIncludes_of_substring {s ch : Str} (h : ch <:+: s) :
    strIncludes s ch = true := by
  rcases List.infix_iff_prefix_suffix.1 h with ⟨t, hp, hs⟩
  unfold strIncludes
  rw [List.any_eq_true]
  exact ⟨t, (List.mem_tails _ _).2 hs, List.isPrefixOf_iff_prefix.2 hp⟩

/-- Every query token is a substring of the lowercased query. -/
theorem queryWords_includes {q w : Str} (h : w ∈ queryWords q) :
    strIncludes (lowerStr q) w = true := by
  unfold queryWords at h
  exact strIncludes_of_substring (mem_splitWs_substring (List.mem_of_mem_filter h))

/-- Capped body points are bounded by 10 per token. -/
theorem scoreContent_le (ws : List Str) (contentLower : Str) :
    scoreContent ws contentLower ≤ 10 * ws.length := by
  unfold scoreContent
  calc (ws.map fun w => min (2 * countMatches w contentLower) 10).sum
      ≤ (ws.map fun _ => (10 : Nat)).sum :=
        List.sum_le_sum (fun w _ => min_le_right _ _)
    _ = 10 * ws.length := by
        simp [List.map_const', List.sum_replicate, Nat.mul_comm]

/-- Title points when the lowercased title equals the lowercased query:
every token scores. -/
theorem scoreTitle_all (q : Str) :
    scoreTitle (queryWords q) (lowerStr q) = 20 * (queryWords q).length := by
  unfold scoreTitle
  have h : ∀ w ∈ queryWords q,
      (if strIncludes (lowerStr q) w then (20 : Nat) else 0) = 20 :=
    fun w hw => if_pos (queryWords_includes hw)
  rw [List.map_congr_left h]
  simp [List.map_const', List.sum_replicate, Nat.mul_comm]

/-- Title points vanish when no token occurs in the title. -/
theorem scoreTitle_zero {ws : List Str} {tl : Str}
    (h : ∀ w ∈ ws, strIncludes tl w = false) : scoreTitle ws tl = 0 := by
  unfold scoreTitle
  apply List.sum_eq_zero
  intro x hx
  rcases List.mem_map.1 hx with ⟨w, hw, rfl⟩
  simp [h w hw]

/-- Keyword points vanish when no token occurs in any keyword. -/
theorem scoreKeywords_zero {ws keywords : List Str}
    (h : ∀ w ∈ ws, keywords.any (fun k => strIncludes k w) = false) :
    scoreKeywords ws keywords = 0 := by
  unfold scoreKeywords
  apply List.sum_eq_zero
  intro x hx
  rcases List.mem_map.1 hx with ⟨w, hw, rfl⟩
  simp [h w hw]

/-- Schema-name points vanish when no token occurs in any schema name. -/
theorem scoreGraphql_zero {ws : List Str} {gts : Option (List Str)}
    (h : ∀ ts, gts = some ts →
      ∀ w ∈ ws, ts.any (fun t => strIncludes (lowerStr t) w) = false) :
    scoreGraphql ws gts = 0 := by
  cases gts with
  | none => rfl
  | some ts =>
    unfold scoreGraphql
    apply List.sum_eq_zero
    intro x hx
    rcases List.mem_map.1 hx with ⟨w, hw, rfl⟩
    simp [h ts rfl w hw]

/-- Section points vanish when no token occurs in any section title. -/
theorem scoreSections_zero {ws sections : List Str}
    (h : ∀ sec ∈ sections, ∀ w ∈ ws, strIncludes (lowerStr sec) w = false) :
    scoreSections ws sections = 0 := by
  unfold scoreSections
  apply List.sum_eq_zero
  intro x hx
  rcases List.mem_map.1 hx with ⟨sec, hsec, rfl⟩
  apply List.sum_eq_zero
  intro y hy
  rcases List.mem_map.1 hy with ⟨w, hw, rfl⟩
  simp [h sec hsec w hw]

/-- Regex counting agrees with literal counting on metacharacter-free
tokens. -/
theorem countMatches_literal {w : Str}
    (h : w.all (fun c => !(isRegexMeta c)) = true) :
    ∀ x : Str, countMatches w x = countOcc w x := by
  intro x
  unfold countMatches
  rw [if_pos h]

/-- Claim C5 (counterexample): for the query whose single token is the
end-anchored pattern of letters a, b, c followed by the dollar anchor — a
token longer than two characters that compiles, so search does not throw —
appending that token to a body consisting of the letters a, b, c STRICTLY
DECREASES the document's score: the global match count of the anchored
pattern drops from 1 (the body ends in the anchored text) to 0 (after the
append the body ends in the dollar character), so scoring is not monotone
under appending a query token. -/
theorem score_decreases_on_anchored_token :
    scoreDoc { docBody with content := docBody.content ++ "abc$".data }
        (queryWords "abc$".data) (lowerStr "abc$".data) <
      scoreDoc docBody (queryWords "abc$".data) (lowerStr "abc$".data) ∧
    queryWords "abc$".data = ["abc$".data] ∧
    tokenCompiles "abc$".data = true := by decide

/-- Claim C5 (amended): appending one more occurrence of a query token to
a document's body never decreases its score PROVIDED every query token is
free of regex metacharacters (so that the per-token RegExp denotes its
literal text); and — unconditionally — a document whose title exactly
equals the query string scores strictly higher than any document matching
the query only in its body (no token in its title, keywords, schema names
or section titles, and no exact-title equality). -/
theorem score_monotone_literal_and_exact_title :
    (∀ (d : SearchDocument) (query w : Str), w ∈ queryWords query →
      (∀ w' ∈ queryWords query, w'.all (fun c => !(isRegexMeta c)) = true) →
      scoreDoc d (queryWords query) (lowerStr query) ≤
        scoreDoc { d with content := d.content ++ w }
          (queryWords query) (lowerStr query)) ∧
    (∀ (dA dB : SearchDocument) (query : Str),
      dA.title = query →
      (∀ w ∈ queryWords query, strIncludes (lowerStr dB.title) w = false) →
      lowerStr dB.title ≠ lowerStr query →
      (∀ w ∈ queryWords query, dB.keywords.any (fun k => strIncludes k w) = false) →
      (∀ ts, dB.graphqlTypes = some ts →
        ∀ w ∈ queryWords query, ts.any (fun t => strIncludes (lowerStr t) w) = false) →
      (∀ sec ∈ dB.sections, ∀ w ∈ queryWords query,
        strIncludes (lowerStr sec) w = false) →
      scoreDoc dB (queryWords query) (lowerStr query) <
        scoreDoc dA (queryWords query) (lowerStr query)) := by
  constructor
  · intro d query w _ hlit
    unfold scoreDoc
    have hc : scoreContent (queryWords query) (lowerStr d.content) ≤
        scoreContent (queryWords query) (lowerStr (d.content ++ w)) := by
      unfold scoreContent
      apply List.sum_le_sum
      intro w' hw'
      rw [countMatches_literal (hlit w' hw'), countMatches_literal (hlit w' hw')]
      have hcount : countOcc w' (lowerStr d.content) ≤
          countOcc w' (lowerStr (d.content ++ w)) := by
        unfold lowerStr
        rw [List.map_append]
        exact countOcc_append _ _ _
      exact min_le_min (Nat.mul_le_mul_left 2 hcount) (Nat.le_refl 10)
    exact Nat.add_le_add (Nat.add_le_add (Nat.add_le_add (Nat.add_le_add
      (Nat.add_le_add (Nat.le_refl _) (Nat.le_refl _)) (Nat.le_refl _))
      (Nat.le_refl _)) hc) (Nat.le_refl _)
  · intro dA dB query hA hBt hBe hBk hBg hBs
    have hAtitle : lowerStr dA.title = lowerStr query := by rw [hA]
    have hA_ge : 20 * (queryWords query).length + 50 ≤
        scoreDoc dA (queryWords query) (lowerStr query) := by
      unfold scoreDoc
      rw [hAtitle, scoreTitle_all, if_pos rfl]
      omega
    have hB_le : scoreDoc dB (queryWords query) (lowerStr query) ≤
        10 * (queryWords query).length := by
      unfold scoreDoc
      rw [scoreTitle_zero hBt, if_neg hBe, scoreKeywords_zero hBk,
        scoreGraphql_zero hBg, scoreSections_zero hBs]
      simp only [Nat.zero_add, Nat.add_zero]
      exact scoreContent_le _ _
    omega

/-- Witness for the amended C5 at a concrete query and two concrete
documents, discharging every hypothesis. -/
theorem score_monotone_literal_and_exact_title_witness :
    scoreDoc docGuide (queryWords "product".data) (lowerStr "product".data) <
      scoreDoc docProduct (queryWords "product".data) (lowerStr "product".data) ∧
    scoreDoc docGuide (queryWords "product".data) (lowerStr "product".data) ≤
      scoreDoc { docGuide with content := docGuide.content ++ "product".data }
        (queryWords "product".data) (lowerStr "product".data) :=
  ⟨score_monotone_literal_and_exact_title.2 docProduct docGuide "product".data rfl
      (by decide) (by decide) (by decide)
      (by intro ts h; simp [docGuide] at h) (by decide),
   score_monotone_literal_and_exact_title.1 docGuide "product".data "product".data
      (by decide) (by decide)⟩

/-- One guarded loop iteration preserves distinctness of visited and keeps
its size within the page budget. -/
theorem crawlStep_inv (env : CrawlEnv) (s : CrawlState) (hq : s.queue ≠ [])
    (hlen : s.visited.length < env.maxPages) (hnd : s.visited.Nodup) :
    (crawlStep env s).visited.Nodup ∧
    (crawlStep env s).visited.length ≤ env.maxPages := by
  cases hsq : s.queue with
  | nil => exact absurd hsq hq
  | cons ud rest =>
    obtain ⟨url, depth⟩ := ud
    simp only [crawlStep, hsq]
    split
    · refine ⟨hnd, ?_⟩
      show s.visited.length ≤ env.maxPages
      omega
    · next hguard =>
      have hnotmem : url ∉ s.visited := fun hmem => hguard (Or.inl hmem)
      have hnd' : (s.visited ++ [url]).Nodup := by
        rw [List.nodup_append]
        refine ⟨hnd, by simp, ?_⟩
        intro a ha hb
        rw [List.mem_singleton] at hb
        subst hb
        exact hnotmem ha
      have hlen' : (s.visited ++ [url]).length ≤ env.maxPages := by
        simp only [List.length_append, List.length_singleton]
        omega
      cases env.cache0 url with
      | none =>
        cases env.fetch url with
        | none => exact ⟨hnd', hlen'⟩
        | some page => exact ⟨hnd', hlen'⟩
      | some page => exact ⟨hnd', hlen'⟩

/-- The crawl loop preserves distinctness of visited and the page budget. -/
theorem crawlLoop_inv (env : CrawlEnv) (s : CrawlState) :
    s.visited.Nodup → s.visited.length ≤ env.maxPages →
    (crawlLoop env s).visited.Nodup ∧
    (crawlLoop env s).visited.length ≤ env.maxPages := by
  refine crawlLoop.induct env
    (fun s => s.visited.Nodup → s.visited.length ≤ env.maxPages →
      (crawlLoop env s).visited.Nodup ∧
      (crawlLoop env s).visited.length ≤ env.maxPages) ?_ ?_ s
  · intro x hcond ih hnd _
    rw [crawlLoop, dif_pos hcond]
    have hstep := crawlStep_inv env x hcond.1 hcond.2 hnd
    exact ih hstep.1 hstep.2
  · intro x hcond hnd hlen
    rw [crawlLoop, dif_neg hcond]
    exact ⟨hnd, hlen⟩

/-- Claim C6: at every step of the crawl loop the visited set holds no
duplicate URLs and never exceeds maxPages (stated as preservation by one
guarded iteration and by the whole loop), and the returned result's
discovered list — the final visited set — is duplicate-free and within
maxPages. -/
theorem crawl_visited_nodup_bounded :
    (∀ (env : CrawlEnv) (s : CrawlState), s.queue ≠ [] →
      s.visited.length < env.maxPages → s.visited.Nodup →
      (crawlStep env s).visited.Nodup ∧
      (crawlStep env s).visited.length ≤ env.maxPages) ∧
    (∀ (env : CrawlEnv) (s : CrawlState), s.visited.Nodup →
      s.visited.length ≤ env.maxPages →
      (crawlLoop env s).visited.Nodup ∧
      (crawlLoop env s).visited.length ≤ env.maxPages) ∧
    (∀ env : CrawlEnv, (crawl env).urlsDiscovered.Nodup ∧
      (crawl env).urlsDiscovered.length ≤ env.maxPages) := by
  refine ⟨crawlStep_inv, fun env s => crawlLoop_inv env s, ?_⟩
  intro env
  have h := crawlLoop_inv env (crawlInit env) (by simp [crawlInit])
    (by simp [crawlInit])
  simpa [crawl] using h

/-- Witness for C6 at a concrete environment and a concrete one-URL
frontier, discharging every hypothesis. -/
theorem crawl_visited_nodup_bounded_witness :
    ((crawlStep (allFailEnv (fun _ => false) (fun _ _ => []) (fun _ => []))
        ⟨[("https://ikas.dev/docs/intro".data, 0)], [], []⟩).visited.Nodup ∧
      (crawlStep (allFailEnv (fun _ => false) (fun _ _ => []) (fun _ => []))
        ⟨[("https://ikas.dev/docs/intro".data, 0)], [], []⟩).visited.length ≤
        (allFailEnv (fun _ => false) (fun _ _ => []) (fun _ => [])).maxPages) ∧
    ((crawlLoop (allFailEnv (fun _ => false) (fun _ _ => []) (fun _ => []))
        ⟨[("https://ikas.dev/docs/intro".data, 0)], [], []⟩).visited.Nodup ∧
      (crawlLoop (allFailEnv (fun _ => false) (fun _ _ => []) (fun _ => []))
        ⟨[("https://ikas.dev/docs/intro".data, 0)], [], []⟩).visited.length ≤
        (allFailEnv (fun _ => false) (fun _ _ => []) (fun _ => [])).maxPages) ∧
    ((crawl (allFailEnv (fun _ => false) (fun _ _ => []) (fun _ => []))).urlsDiscovered.Nodup ∧
      (crawl (allFailEnv (fun _ => false) (fun _ _ => []) (fun _ => []))).urlsDiscovered.length ≤
        (allFailEnv (fun _ => false) (fun _ _ => []) (fun _ => [])).maxPages) :=
  ⟨crawl_visited_nodup_bounded.1 _ _ (by decide) (by decide) (by decide),
   crawl_visited_nodup_bounded.2.1 _ _ (by decide) (by decide),
   crawl_visited_nodup_bounded.2.2 _⟩

/-- When every fetch fails over an empty store, the crawl loop degenerates
to the queue-draining run that visits and fails each admissible URL. -/
theorem crawlLoop_allFail (env : CrawlEnv) (hf : env.fetch = fun _ => none)
    (hc : env.cache0 = fun _ => none) :
    ∀ (q : List (Str × Nat)) (v f : List Str),
      crawlLoop env ⟨q, v, f⟩ = allFailRun env.maxDepth env.maxPages q v f := by
  intro q
  induction q with
  | nil =>
    intro v f
    rw [crawlLoop, dif_neg (fun h => h.1 rfl)]
    rfl
  | cons ud rest ih =>
    obtain ⟨u, d⟩ := ud
    intro v f
    rw [crawlLoop]
    by_cases hv : v.length < env.maxPages
    · rw [dif_pos ⟨by simp, hv⟩]
      by_cases hg : u ∈ v ∨ env.maxDepth < d
      · have hstep : crawlStep env ⟨(u, d) :: rest, v, f⟩ = ⟨rest, v, f⟩ := by
          simp [crawlStep, hg]
        rw [hstep, ih]
        simp [allFailRun, hv, hg]
      · have hstep : crawlStep env ⟨(u, d) :: rest, v, f⟩ =
            ⟨rest, v ++ [u], setAdd f u⟩ := by
          simp only [crawlStep]
          rw [if_neg hg]
          simp [hc, hf]
        rw [hstep, ih]
        simp [allFailRun, hv, hg]
    · rw [dif_neg (fun h => hv h.2)]
      simp [allFailRun, hv]

/-- Claim C7: when the fetch collaborator fails on every URL (also for the
sitemap) and the durable store is empty, crawl completes and returns an
empty crawled list and a failed list equal to the fixed seed URLs (which
are also exactly the discovered URLs) — for every admission predicate,
link harvester and sitemap parser. -/
theorem crawl_fetch_always_fails (sc : Str → Bool) (el : Str → Str → List Str)
    (sp : Page → List Str) :
    (crawl (allFailEnv sc el sp)).urlsCrawled = [] ∧
    (crawl (allFailEnv sc el sp)).urlsFailed = seedUrls ∧
    (crawl (allFailEnv sc el sp)).urlsDiscovered = seedUrls := by
  have hloop := crawlLoop_allFail (allFailEnv sc el sp) rfl rfl
  have hinit : crawlInit (allFailEnv sc el sp) =
      ⟨seedUrls.map (fun u => (u, 0)), [], []⟩ := by
    simp [crawlInit, allFailEnv]
  simp only [crawl]
  rw [hinit, hloop]
  exact ⟨rfl, rfl, rfl⟩

/-- The link fold only ever accumulates URLs carrying the site prefix. -/
theorem extractLinks_fold_prefix :
    ∀ (hrefs : List Str) (base : UrlParts) (acc : List Str),
      (∀ u ∈ acc, siteBase.isPrefixOf u = true) →
      ∀ u ∈ hrefs.foldl (fun links href =>
          match resolveHref base href with
          | none => links
          | some cleanUrl =>
            if siteBase.isPrefixOf cleanUrl then setAdd links cleanUrl
            else links) acc,
        siteBase.isPrefixOf u = true := by
  intro hrefs
  induction hrefs with
  | nil => intro base acc hacc u hu; exact hacc u hu
  | cons href rest ih =>
    intro base acc hacc u hu
    rw [List.foldl_cons] at hu
    refine ih base _ ?_ u hu
    intro v hv
    cases hr : resolveHref base href with
    | none =>
      simp only [hr] at hv
      exact hacc v hv
    | some c =>
      simp only [hr] at hv
      split at hv
      · next hpre =>
        unfold setAdd at hv
        split at hv
        · exact hacc v hv
        · rcases List.mem_append.1 hv with hv | hv
          · exact hacc v hv
          · rw [List.mem_singleton] at hv
            subst hv
            exact hpre
      · exact hacc v hv

/-- Claim C8 (counterexample): the harvested link with href
https://ikas.dev.evil.com/x survives extraction against the page
https://ikas.dev/docs/intro although its origin
(https://ikas.dev.evil.com) differs from the origin of the crawled site
(https://ikas.dev) — the filter is a string-prefix test, not an origin
comparison, refuting that no URL of a different origin ever enters the
returned link set. -/
theorem extractLinks_admits_foreign_origin :
    extractLinks ["https://ikas.dev.evil.com/x".data]
        "https://ikas.dev/docs/intro".data =
      some ["https://ikas.dev.evil.com/x".data] ∧
    (parseAbsUrl "https://ikas.dev.evil.com/x".data).map urlOrigin =
      some "https://ikas.dev.evil.com".data ∧
    (parseAbsUrl "https://ikas.dev/docs/intro".data).map urlOrigin =
      some "https://ikas.dev".data ∧
    ("https://ikas.dev.evil.com".data : Str) ≠ "https://ikas.dev".data := by
  decide

/-- Claim C8 (amended): every anchor href is resolved against the page URL
(absolute, protocol-relative, root-relative and relative forms), the
fragment is stripped, fragment-only hrefs are discarded, and a link is
kept exactly when the cleaned URL string starts with the literal site
prefix https://ikas.dev — a string-prefix test that admits foreign origins
extending that prefix.  Stated here: every returned link carries the site
prefix, and a fragment-only href contributes nothing. -/
theorem extractLinks_prefix_filter :
    (∀ (hrefs : List Str) (baseUrl : Str) (links : List Str),
      extractLinks hrefs baseUrl = some links →
      ∀ u ∈ links, siteBase.isPrefixOf u = true) ∧
    (∀ (href : Str) (hrefs : List Str) (baseUrl : Str),
      ['#'].isPrefixOf href = true →
      extractLinks (href :: hrefs) baseUrl = extractLinks hrefs baseUrl) := by
  constructor
  · intro hrefs baseUrl links hl u hu
    unfold extractLinks at hl
    cases hb : parseAbsUrl baseUrl with
    | none => rw [hb] at hl; cases hl
    | some base =>
      rw [hb] at hl
      simp only [Option.map_some', Option.some.injEq] at hl
      subst hl
      exact extractLinks_fold_prefix hrefs base [] (by simp) u hu
  · intro href hrefs baseUrl hpre
    unfold extractLinks
    cases hb : parseAbsUrl baseUrl with
    | none => rfl
    | some base =>
      rcases List.isPrefixOf_iff_prefix.1 hpre with ⟨t, ht⟩
      have hnone : resolveHref base href = none := by
        rw [← ht]
        unfold resolveHref
        simp [List.isPrefixOf]
      simp only [Option.map_some', List.foldl_cons, hnone]

/-- Witness for the amended C8 statement at a concrete root-relative href
and a concrete fragment-only href. -/
theorem extractLinks_prefix_filter_witness :
    (∀ u ∈ ["https://ikas.dev/docs/a".data], siteBase.isPrefixOf u = true) ∧
    extractLinks ["#only".data] "https://ikas.dev/docs/intro".data =
      extractLinks [] "https://ikas.dev/docs/intro".data :=
  ⟨extractLinks_prefix_filter.1 ["/docs/a".data]
      "https://ikas.dev/docs/intro".data
      ["https://ikas.dev/docs/a".data] (by decide),
   extractLinks_prefix_filter.2 "#only".data []
      "https://ikas.dev/docs/intro".data (by decide)⟩

end IkasDocs
